import Mathlib

/-!
Shallow embedding of `src/sexpr_parser.cpp` (namespace `sexpr_parser`):
the S-expression tokenizer, comment stripper, recursive tree builder,
tree-to-S-expression serializer, Prolog clause encoder, and the structural
analyses (functor-atom collection, variable-argument positions, same-domain
argument pairs, atom substitution).

Strings are modelled as Lean `String` (lists of characters); the C++ code
processes `char` values, which coincides with this model on ASCII data.
C++ `assert` failures, out-of-range accesses (`std::vector::front` on an
empty vector, dereferencing a past-the-end token iterator) are modelled as
`Option.none`: the operation fails instead of returning a value.
`std::unordered_set` and `std::unordered_map` are modelled as lists without
duplicates, built by insert-if-absent, which matches the C++ containers'
membership semantics and their `insert`/`emplace` keep-the-existing-entry
behaviour on key conflicts.
-/

namespace Sexpr

/-- The thirteen GDL reserved words (`reserved_words` in the source). -/
def reservedWords : List String :=
  ["role", "init", "true", "does", "legal", "next", "goal", "terminal",
   "input", "base", "or", "not", "distinct"]

/-- `::tolower` in the C locale: only ASCII capitals are lowered. -/
def toLowerChar (c : Char) : Char :=
  if 'A' ≤ c ∧ c ≤ 'Z' then Char.ofNat (c.toNat + 32) else c

/-- `ToLowerCase`: lowers every character of the string. -/
def ToLowerCase (s : String) : String := String.mk (s.data.map toLowerChar)

/-- `LowerReservedWords`: if the lowercased word is reserved, the lowercased
form is returned, otherwise the word is kept as given. -/
def LowerReservedWords (word : String) : String :=
  let lowered := ToLowerCase word
  if lowered ∈ reservedWords then lowered else word

/-- The tree data model: a node is exactly a leaf holding a string value or
a compound holding a list of children (`TreeNode` in the source, with
`is_leaf_`, `value_`, `children_`). -/
inductive TreeNode : Type where
  | leaf (value : String) : TreeNode
  | node (children : List TreeNode) : TreeNode

/-- The leaf constructor `TreeNode(const std::string&)`: it stores
`LowerReservedWords(value)`. -/
def mkLeaf (v : String) : TreeNode := .leaf (LowerReservedWords v)

/-- `TreeNode::GetValue`: the stored value; compounds store the empty string. -/
def TreeNode.getValue : TreeNode → String
  | .leaf v => v
  | .node _ => ""

/-- `TreeNode::IsVariable` on a leaf value: nonempty and starting with `?`. -/
def isVariableValue (v : String) : Bool := v.data.head? = some '?'

/-- Compound construction as performed by `ParseTillRightParen`: when
`flatten` is set and exactly one child was accumulated, that child is
returned directly; otherwise a compound node is built. -/
def mkNode (flatten : Bool) (cs : List TreeNode) : TreeNode :=
  if flatten then
    match cs with
    | [c] => c
    | _ => .node cs
  else .node cs

/-! ### Comment stripping and tokenization -/

/-- Whitespace separators of the tokenizer (`" \n\t\r"`). -/
def isSpaceSep (c : Char) : Bool := c = ' ' || c = '\n' || c = '\t' || c = '\r'

/-- Kept separators of the tokenizer (`"()"`). -/
def isParenSep (c : Char) : Bool := c = '(' || c = ')'

/-- Any separator character. -/
def isSep (c : Char) : Bool := isSpaceSep c || isParenSep c

/-- `RemoveComments` scan: outside a comment a `;` switches into comment
mode; inside a comment every character up to (but not including) the next
newline is dropped. -/
def removeCommentsAux : List Char → Bool → List Char
  | [], _ => []
  | c :: cs, inComment =>
    if inComment then
      if c = '\n' then c :: removeCommentsAux cs false
      else removeCommentsAux cs true
    else
      if c = ';' then removeCommentsAux cs true
      else c :: removeCommentsAux cs false

/-- `RemoveComments` on the character list: every run from a `;` up to (but
not including) the end of its line is removed. -/
def removeCommentsList (l : List Char) : List Char := removeCommentsAux l false

/-- `RemoveComments(sexpr)`: strip `;`-to-end-of-line comments. -/
def RemoveComments (s : String) : String := String.mk (removeCommentsList s.data)

/-- Flush the pending (reversed) token characters into a token, if any. -/
def flushTok (acc : List Char) : List String :=
  if acc.isEmpty then [] else [String.mk acc.reverse]

/-- The boost tokenizer with dropped separators `" \n\t\r"` and kept
single-character separators `"()"`: maximal runs of non-separator
characters are tokens, parens are tokens of their own. -/
def tokenizeAux : List Char → List Char → List String
  | [], acc => flushTok acc
  | c :: cs, acc =>
    if isSpaceSep c then flushTok acc ++ tokenizeAux cs []
    else if isParenSep c then flushTok acc ++ [String.mk [c]] ++ tokenizeAux cs []
    else tokenizeAux cs (c :: acc)

/-- Token sequence of a string. -/
def tokenize (s : String) : List String := tokenizeAux s.data []

/-! ### The tree builder -/

/-- The recursive descent of `Parse` / `ParseTillRightParen`, phrased with an
explicit stack of pending children lists (`stack = []` is the top level).
`(` opens a new pending list; `)` closes the innermost pending list into a
compound (at the top level a `)` token is handed to the leaf constructor,
exactly as the `else` branch of `Parse`'s loop does); reaching the end of
the tokens with an open `(` dereferences past the end in the C++ code and
is modelled as failure. -/
def parseLoop (flatten : Bool) :
    List String → List TreeNode → List (List TreeNode) → Option (List TreeNode)
  | [], acc, [] => some acc.reverse
  | [], _, _ :: _ => none
  | tok :: rest, acc, stack =>
    if tok = "(" then parseLoop flatten rest [] (acc :: stack)
    else
      if tok = ")" then
        match stack with
        | [] => parseLoop flatten rest (mkLeaf tok :: acc) []
        | parentAcc :: stack' =>
          parseLoop flatten rest (mkNode flatten acc.reverse :: parentAcc) stack'
      else parseLoop flatten rest (mkLeaf tok :: acc) stack

/-- `Parse(sexpr, flatten_tuple_with_one_child)`: strip comments, tokenize,
and build the top-level forest. -/
def Parse (s : String) (flatten : Bool) : Option (List TreeNode) :=
  parseLoop flatten (tokenize (RemoveComments s)) [] []

/-- `ParseKIF(kif) = Parse(kif, true)`. -/
def ParseKIF (s : String) : Option (List TreeNode) := Parse s true

/-! ### Serialization back to S-expression text -/

mutual

/-- `TreeNode::ToSexpr`: a leaf is its value, a compound is the
space-joined children wrapped in parens. -/
def TreeNode.toSexpr : TreeNode → String
  | .leaf v => v
  | .node cs => "(" ++ toSexprList cs ++ ")"

/-- The space-joined serialization of a children list. -/
def toSexprList : List TreeNode → String
  | [] => ""
  | [t] => t.toSexpr
  | t :: ts => t.toSexpr ++ " " ++ toSexprList ts

end

/-! ### Prolog encoding -/

/-- A single-quote character, written via its code point. -/
def sq : String := String.singleton (Char.ofNat 39)

/-- `std::isalnum` in the C locale: ASCII digits and letters. -/
def isAlnumChar (c : Char) : Bool :=
  ('0' ≤ c && c ≤ '9') || ('a' ≤ c && c ≤ 'z') || ('A' ≤ c && c ≤ 'Z')

/-- `FilterVariableName`: alphanumeric characters and `_` are kept, every
other character becomes the literal text `_c<code>_`. -/
def FilterVariableName : List Char → String
  | [] => ""
  | c :: cs =>
    (if isAlnumChar c || c = '_' then String.singleton c
     else "_c" ++ toString c.toNat ++ "_") ++ FilterVariableName cs

/-- `ConvertToPrologAtom`: a `?`-prefixed value becomes `_` followed by its
filtered name (never prefixed or quoted); any other value gets the atom
prefix and, when requested, single quotes. -/
def ConvertToPrologAtom (value : String) (quotes : Bool) (apre : String) : String :=
  match value.data with
  | '?' :: rest => "_" ++ FilterVariableName rest
  | _ =>
    let atom := apre ++ value
    if quotes then sq ++ atom ++ sq else atom

/-- `ConvertToPrologFunctor`: the functor prefix is prepended and, when
requested, the result is single-quoted. -/
def ConvertToPrologFunctor (value : String) (quotes : Bool) (fpre : String) : String :=
  let functor := fpre ++ value
  if quotes then sq ++ functor ++ sq else functor

/-- `TreeNode::ToPrologAtom`: asserts the node is a leaf. -/
def TreeNode.toPrologAtom : TreeNode → Bool → String → Option String
  | .leaf v, quotes, apre => some (ConvertToPrologAtom v quotes apre)
  | .node _, _, _ => none

/-- `TreeNode::ToPrologFunctor`: asserts the node is a leaf whose value does
not start with `?`. -/
def TreeNode.toPrologFunctor : TreeNode → Bool → String → Option String
  | .leaf v, quotes, fpre =>
    if v.data.head? = some '?' then none
    else some (ConvertToPrologFunctor v quotes fpre)
  | .node _, _, _ => none

mutual

/-- `TreeNode::ToPrologTerm`: a leaf is its atom; a compound needs at least
a functor leaf and one argument and renders `functor(arg, ..., arg)`. -/
def TreeNode.toPrologTerm : TreeNode → Bool → String → String → Option String
  | .leaf v, quotes, _, apre => TreeNode.toPrologAtom (.leaf v) quotes apre
  | .node cs, quotes, fpre, apre =>
    match cs with
    | c0 :: c1 :: rest =>
      match TreeNode.toPrologFunctor c0 quotes fpre with
      | none => none
      | some f =>
        match termsJoined (c1 :: rest) quotes fpre apre with
        | none => none
        | some args => some (f ++ "(" ++ args ++ ")")
    | _ => none

/-- The `", "`-joined Prolog terms of a list of nodes. -/
def termsJoined : List TreeNode → Bool → String → String → Option String
  | [], _, _, _ => some ""
  | [t], quotes, fpre, apre => t.toPrologTerm quotes fpre apre
  | t :: ts, quotes, fpre, apre =>
    match t.toPrologTerm quotes fpre apre with
    | none => none
    | some s =>
      match termsJoined ts quotes fpre apre with
      | none => none
      | some rest => some (s ++ ", " ++ rest)

end

/-- `TreeNode::ToPrologClause`: a leaf or non-rule compound renders as its
term followed by `.`; a compound whose first child is the leaf `<=` renders
as `head :- goal, ..., goal.` (or `head.` when there are no body goals). -/
def TreeNode.toPrologClause : TreeNode → Bool → String → String → Option String
  | .leaf v, quotes, fpre, apre =>
    (TreeNode.toPrologTerm (.leaf v) quotes fpre apre).map (· ++ ".")
  | .node cs, quotes, fpre, apre =>
    match cs with
    | [] => none
    | c0 :: rest =>
      match c0 with
      | .leaf v0 =>
        if v0 = "<=" then
          match rest with
          | [] => none
          | head :: body =>
            match head.toPrologTerm quotes fpre apre with
            | none => none
            | some h =>
              match body with
              | [] => some (h ++ ".")
              | _ =>
                match termsJoined body quotes fpre apre with
                | none => none
                | some b => some (h ++ " :- " ++ b ++ ".")
        else (TreeNode.toPrologTerm (.node cs) quotes fpre apre).map (· ++ ".")
      | .node _ => none

/-- The clause of every top-level node, in order. -/
def clausesOf (nodes : List TreeNode) (quotes : Bool) (fpre apre : String) :
    Option (List String) :=
  nodes.mapM (fun n => n.toPrologClause quotes fpre apre)

/-! ### Functor-atom collection

`std::unordered_map<std::string, int>` is modelled as an association list;
`emplace`/`insert` keep an existing entry for the key, so insertion is
skip-if-present. -/

/-- A functor-name-to-arity mapping. -/
abbrev FunctorMap := List (String × Nat)

/-- `unordered_map::emplace` / single-entry `insert`: keep the map unchanged
when the key is present. -/
def fmInsert (m : FunctorMap) (k : String) (a : Nat) : FunctorMap :=
  if m.any (fun p => p.1 = k) then m else m ++ [(k, a)]

/-- Range `insert`: entries of `m₂` are inserted one by one into `m₁`,
never overwriting. -/
def fmMerge (m₁ m₂ : FunctorMap) : FunctorMap :=
  m₂.foldl (fun m p => fmInsert m p.1 p.2) m₁

mutual

/-- `TreeNode::CollectFunctorAtoms`: a leaf contributes nothing; a compound
(assertions: at least two children, leaf functor) records its functor with
arity `children - 1` unless the functor is `<=`, then inserts the mappings
of each non-leaf argument, left to right. -/
def TreeNode.CollectFunctorAtoms : TreeNode → Option FunctorMap
  | .leaf _ => some []
  | .node cs =>
    match cs with
    | .leaf v0 :: c1 :: rest =>
      cfaArgs (if v0 = "<=" then [] else [(v0, (c1 :: rest).length)]) (c1 :: rest)
    | _ => none

/-- The argument loop of `CollectFunctorAtoms`: leaves are skipped, the
mapping of every compound argument is range-inserted into the accumulator. -/
def cfaArgs (acc : FunctorMap) : List TreeNode → Option FunctorMap
  | [] => some acc
  | t :: ts =>
    match t with
    | .leaf _ => cfaArgs acc ts
    | .node tcs =>
      match TreeNode.CollectFunctorAtoms (.node tcs) with
      | none => none
      | some m => cfaArgs (fmMerge acc m) ts

end

/-- The free function `CollectFunctorAtoms(nodes)`: the nodes' mappings are
range-inserted into one map, in forest order. -/
def CollectFunctorAtomsForest : List TreeNode → Option FunctorMap :=
  go []
where
  /-- Fold of the forest loop. -/
  go (acc : FunctorMap) : List TreeNode → Option FunctorMap
    | [] => some acc
    | n :: ns =>
      match n.CollectFunctorAtoms with
      | none => none
      | some m => go (fmMerge acc m) ns

/-! ### Variable-argument positions -/

/-- `ArgPos`: functor name and argument index (index 0 is the functor, so
recorded argument positions start at 1). -/
abbrev ArgPos := String × Nat

/-- `ArgPosPair`. -/
abbrev ArgPosPair := ArgPos × ArgPos

/-- A map from variable names to their sets of argument positions. -/
abbrev VarMap := List (String × List ArgPos)

/-- `unordered_set<ArgPos>::emplace`: add if absent. -/
def posInsert (s : List ArgPos) (p : ArgPos) : List ArgPos :=
  if p ∈ s then s else s ++ [p]

/-- Range `insert` of a position set. -/
def posUnion (s₁ s₂ : List ArgPos) : List ArgPos := s₂.foldl posInsert s₁

/-- Record one position for one variable (`emplace` into the inner set, or
a fresh singleton entry). -/
def vmAdd (m : VarMap) (v : String) (p : ArgPos) : VarMap :=
  if m.any (fun e => e.1 = v) then
    m.map (fun e => if e.1 = v then (e.1, posInsert e.2 p) else e)
  else m ++ [(v, [p])]

/-- Merge one entry of a child map: union into an existing entry, or append
the entry as-is. -/
def vmMergeEntry (m : VarMap) (v : String) (ps : List ArgPos) : VarMap :=
  if m.any (fun e => e.1 = v) then
    m.map (fun e => if e.1 = v then (e.1, posUnion e.2 ps) else e)
  else m ++ [(v, ps)]

/-- Merge a whole child map, entry by entry. -/
def vmMerge (m₁ m₂ : VarMap) : VarMap :=
  m₂.foldl (fun m e => vmMergeEntry m e.1 e.2) m₁

mutual

/-- `TreeNode::CollectVariableArgs`: asserts a compound with at least two
children and a leaf functor; every direct variable-leaf argument records
`(functor, index)` under the variable name, every compound argument is
collected recursively and merged. -/
def TreeNode.CollectVariableArgs : TreeNode → Option VarMap
  | .leaf _ => none
  | .node cs =>
    match cs with
    | .leaf f :: c1 :: rest => cvaArgs f 1 [] (c1 :: rest)
    | _ => none

/-- The argument loop of `CollectVariableArgs`; `idx` is the position of the
next argument within the children vector. -/
def cvaArgs (f : String) (idx : Nat) (acc : VarMap) : List TreeNode → Option VarMap
  | [] => some acc
  | t :: ts =>
    match t with
    | .leaf v =>
      if isVariableValue v then cvaArgs f (idx + 1) (vmAdd acc v (f, idx)) ts
      else cvaArgs f (idx + 1) acc ts
    | .node tcs =>
      match TreeNode.CollectVariableArgs (.node tcs) with
      | none => none
      | some m => cvaArgs f (idx + 1) (vmMerge acc m) ts

end

/-! ### Same-domain argument pairs -/

/-- `std::string::operator<`: lexicographic comparison, character code by
character code. -/
def charListLt : List Char → List Char → Bool
  | _, [] => false
  | [], _ :: _ => true
  | a :: as, b :: bs =>
    if a.toNat < b.toNat then true
    else if b.toNat < a.toNat then false
    else charListLt as bs

/-- String comparison as the C++ code performs it. -/
def strLt (s t : String) : Prop := charListLt s.data t.data = true

instance : DecidableRel strLt := fun s t =>
  inferInstanceAs (Decidable (charListLt s.data t.data = true))

/-- The comparator handed to `std::sort`: by functor name, then by index. -/
def argPosLt (p q : ArgPos) : Prop :=
  if p.1 = q.1 then p.2 < q.2 else strLt p.1 q.1

instance : DecidableRel argPosLt := fun p q =>
  inferInstanceAs (Decidable (if p.1 = q.1 then p.2 < q.2 else strLt p.1 q.1))

/-- The reflexive closure of the comparator; sorting with it yields the
exact output of `std::sort` on a duplicate-free list. -/
def argPosLe (p q : ArgPos) : Prop := argPosLt p q ∨ p = q

instance : DecidableRel argPosLe := fun p q =>
  inferInstanceAs (Decidable (argPosLt p q ∨ p = q))

/-- `std::sort` of a position list under the comparator. -/
def sortPositions (ps : List ArgPos) : List ArgPos := List.insertionSort argPosLe ps

/-- The double loop `for i ...; for j = i+1 ...` emitting every ordered
pair of list positions. -/
def allPairs : List ArgPos → List ArgPosPair
  | [] => []
  | p :: ps => ps.map (fun q => (p, q)) ++ allPairs ps

/-- `unordered_set<ArgPosPair>::emplace`: add if absent. -/
def ppInsert (s : List ArgPosPair) (p : ArgPosPair) : List ArgPosPair :=
  if p ∈ s then s else s ++ [p]

/-- Range `insert` of a pair set. -/
def ppUnion (s₁ s₂ : List ArgPosPair) : List ArgPosPair := s₂.foldl ppInsert s₁

/-- The one-map overload `VariableArgPosToArgPosPairs`: for every variable
with at least two positions, sort its positions and emplace every ordered
pair of them. -/
def VariableArgPosToArgPosPairsB (m : VarMap) : List ArgPosPair :=
  m.foldl
    (fun res e =>
      if e.2.length = 1 then res
      else ppUnion res (allPairs (sortPositions e.2)))
    []

/-- The two-map overload: for every head variable that also occurs in the
body, emplace every (head position, body position) pair, head first. -/
def VariableArgPosToArgPosPairsHB (headM bodyM : VarMap) : List ArgPosPair :=
  headM.foldl
    (fun res e =>
      match (bodyM.find? (fun b => b.1 = e.1)).map Prod.snd with
      | none => res
      | some bodyPs => ppUnion res (e.2.flatMap (fun h => bodyPs.map (fun b => (h, b)))))
    []

/-- The body loop shared by both same-domain collectors: variable args of
every compound body goal, merged left to right. -/
def bodyVarArgs (acc : VarMap) : List TreeNode → Option VarMap
  | [] => some acc
  | t :: ts =>
    match t with
    | .leaf _ => bodyVarArgs acc ts
    | .node tcs =>
      match TreeNode.CollectVariableArgs (.node tcs) with
      | none => none
      | some m => bodyVarArgs (vmMerge acc m) ts

/-- `TreeNode::CollectSameDomainArgsInBody`: asserts a `<=` compound; the
pairs of the merged variable args of the body goals (children from index
2 on). -/
def TreeNode.CollectSameDomainArgsInBody : TreeNode → Option (List ArgPosPair)
  | .leaf _ => none
  | .node cs =>
    match cs with
    | .leaf f :: _ :: rest =>
      if f = "<=" then
        match bodyVarArgs [] rest with
        | none => none
        | some m => some (VariableArgPosToArgPosPairsB m)
      else none
    | _ => none

/-- `TreeNode::CollectSameDomainArgsBetweenHeadAndBody`: asserts a `<=`
compound; empty when there is no body or the head is a leaf, otherwise the
(head, body) pairs of shared variables. -/
def TreeNode.CollectSameDomainArgsBetweenHeadAndBody : TreeNode → Option (List ArgPosPair)
  | .leaf _ => none
  | .node cs =>
    match cs with
    | .leaf f :: c1 :: rest =>
      if f = "<=" then
        match rest with
        | [] => some []
        | _ =>
          match c1 with
          | .leaf _ => some []
          | .node hcs =>
            match TreeNode.CollectVariableArgs (.node hcs) with
            | none => none
            | some hm =>
              match bodyVarArgs [] rest with
              | none => none
              | some bm => some (VariableArgPosToArgPosPairsHB hm bm)
      else none
    | _ => none

/-! ### Helper clauses and whole-program output -/

/-- The rule loop of `GeneratePrologHelperClauses`: for every non-leaf node
whose first child's value is `<=`, the in-body and head-body pair sets are
range-inserted into the two accumulators (`front()` on an empty children
vector is out of range and fails). -/
def collectRulePairs :
    List TreeNode → List ArgPosPair × List ArgPosPair →
    Option (List ArgPosPair × List ArgPosPair)
  | [], acc => some acc
  | n :: ns, acc =>
    match n with
    | .leaf _ => collectRulePairs ns acc
    | .node [] => none
    | .node (c0 :: cs) =>
      if c0.getValue = "<=" then
        match TreeNode.CollectSameDomainArgsInBody (.node (c0 :: cs)) with
        | none => none
        | some ib =>
          match TreeNode.CollectSameDomainArgsBetweenHeadAndBody (.node (c0 :: cs)) with
          | none => none
          | some hb => collectRulePairs ns (ppUnion acc.1 ib, ppUnion acc.2 hb)
      else collectRulePairs ns acc

/-- One `user_defined_functor(Name, Arity).` line. -/
def userFunctorLine (quotes : Bool) (fpre : String) (p : String × Nat) : String :=
  "user_defined_functor(" ++ ConvertToPrologFunctor p.1 quotes fpre ++ ", " ++
    toString p.2 ++ ")."

/-- One `connected_args(F1, P1, F2, P2).` line. -/
def connectedArgsLine (quotes : Bool) (fpre : String) (p : ArgPosPair) : String :=
  "connected_args(" ++ ConvertToPrologFunctor p.1.1 quotes fpre ++ ", " ++
    toString p.1.2 ++ ", " ++ ConvertToPrologFunctor p.2.1 quotes fpre ++ ", " ++
    toString p.2.2 ++ ")."

/-- One `equivalent_args(F1, P1, F2, P2).` line. -/
def equivalentArgsLine (quotes : Bool) (fpre : String) (p : ArgPosPair) : String :=
  "equivalent_args(" ++ ConvertToPrologFunctor p.1.1 quotes fpre ++ ", " ++
    toString p.1.2 ++ ", " ++ ConvertToPrologFunctor p.2.1 quotes fpre ++ ", " ++
    toString p.2.2 ++ ")."

/-- The lines of `GeneratePrologHelperClauses`, in emission order: a
`user_defined_functor` line for every collected non-reserved functor, a
`connected_args` line for every in-body pair not present in the head-body
pair set, an `equivalent_args` line for every head-body pair. -/
def GeneratePrologHelperLines (nodes : List TreeNode) (quotes : Bool) (fpre : String) :
    Option (List String) :=
  match CollectFunctorAtomsForest nodes with
  | none => none
  | some functors =>
    match collectRulePairs nodes ([], []) with
    | none => none
    | some (inBody, headBody) =>
      some
        ((functors.filter (fun p => decide (p.1 ∉ reservedWords))).map
            (userFunctorLine quotes fpre) ++
          (inBody.filter (fun p => decide (p ∉ headBody))).map
            (connectedArgsLine quotes fpre) ++
          headBody.map (equivalentArgsLine quotes fpre))

/-- `GeneratePrologHelperClauses`: the helper lines, each followed by a
newline, concatenated. -/
def GeneratePrologHelperClauses (nodes : List TreeNode) (quotes : Bool)
    (fpre apre : String) : Option String :=
  (GeneratePrologHelperLines nodes quotes fpre).map
    (fun ls => String.join (ls.map (· ++ "\n")))

/-- `ToProlog(nodes, quotes_atoms, functor_prefix, atom_prefix,
adds_helper_clauses)`: every clause followed by a newline; when helper
clauses are requested their block is appended, followed by one more
newline. -/
def ToProlog (nodes : List TreeNode) (quotes : Bool) (fpre apre : String)
    (addsHelperClauses : Bool) : Option String :=
  match clausesOf nodes quotes fpre apre with
  | none => none
  | some cls =>
    let base := String.join (cls.map (· ++ "\n"))
    if addsHelperClauses then
      match GeneratePrologHelperClauses nodes quotes fpre apre with
      | none => none
      | some h => some (base ++ h ++ "\n")
    else some base

/-! ### Atom substitution -/

mutual

/-- `TreeNode::ReplaceAtoms`: a leaf equal to `before` is rebuilt from
`after`, any other leaf is rebuilt from its own value (both through the
leaf constructor), compounds are rebuilt from their replaced children. -/
def TreeNode.ReplaceAtoms : TreeNode → String → String → TreeNode
  | .leaf v, before, after => if v = before then mkLeaf after else mkLeaf v
  | .node cs, before, after => .node (replaceAtomsList cs before after)

/-- `ReplaceAtoms` over a children list or forest. -/
def replaceAtomsList : List TreeNode → String → String → List TreeNode
  | [], _, _ => []
  | t :: ts, before, after => t.ReplaceAtoms before after :: replaceAtomsList ts before after

end

/-! ### Reachability predicates and induction -/

/-- A leaf value as the constructor stores it: when its lowercasing is a
reserved word, the value already is that lowercasing. -/
def leafOk (v : String) : Prop :=
  ToLowerCase v ∈ reservedWords → v = ToLowerCase v

instance (v : String) : Decidable (leafOk v) := by
  unfold leafOk
  infer_instance

/-- Trees reachable through the `TreeNode` constructors: every leaf value
went through `LowerReservedWords`. -/
inductive Wf : TreeNode → Prop where
  | leaf {v : String} : leafOk v → Wf (.leaf v)
  | node {cs : List TreeNode} : (∀ t ∈ cs, Wf t) → Wf (.node cs)

/-- A parseable token value: nonempty, and free of parentheses and of the
tokenizer's whitespace. This is the hypothesis the round-trip claim
states. -/
def GoodTok (v : String) : Prop :=
  v.data ≠ [] ∧ ∀ c ∈ v.data, ¬(isSep c = true)

instance (v : String) : Decidable (GoodTok v) := by
  unfold GoodTok
  infer_instance

/-- A round-trippable token value: additionally free of `;`, so that
comment stripping cannot eat it. -/
def SafeTok (v : String) : Prop := GoodTok v ∧ ∀ c ∈ v.data, c ≠ ';'

instance (v : String) : Decidable (SafeTok v) := by
  unfold SafeTok
  infer_instance

/-- Trees whose leaves are constructor-normalized, safe tokens. -/
inductive RT : TreeNode → Prop where
  | leaf {v : String} : leafOk v → SafeTok v → RT (.leaf v)
  | node {cs : List TreeNode} : (∀ t ∈ cs, RT t) → RT (.node cs)

mutual

/-- Structural induction for the nested `TreeNode` type. -/
def treeInd {motive : TreeNode → Prop} (hl : ∀ v, motive (.leaf v))
    (hn : ∀ cs, (∀ t ∈ cs, motive t) → motive (.node cs)) : ∀ t, motive t
  | .leaf v => hl v
  | .node cs => hn cs (treeIndList hl hn cs)

/-- Structural induction over a children list. -/
def treeIndList {motive : TreeNode → Prop} (hl : ∀ v, motive (.leaf v))
    (hn : ∀ cs, (∀ t ∈ cs, motive t) → motive (.node cs)) :
    ∀ cs : List TreeNode, ∀ t ∈ cs, motive t
  | c :: cs, t, h => by
    rcases List.mem_cons.mp h with e | e
    · exact e ▸ treeInd hl hn c
    · exact treeIndList hl hn cs t e

end

/-! ### Basic lemmas about leaf construction -/

/-- Rebuilding the structure from its character list is the identity. -/
theorem mk_data (s : String) : String.mk s.data = s := rfl

/-- On a constructor-normalized value, `LowerReservedWords` is the
identity. -/
theorem lrw_of_leafOk {v : String} (h : leafOk v) : LowerReservedWords v = v := by
  by_cases hmem : ToLowerCase v ∈ reservedWords
  · simp only [LowerReservedWords, if_pos hmem]
    exact (h hmem).symm
  · simp only [LowerReservedWords, if_neg hmem]

/-- Every value the leaf constructor stores is itself normalized. -/
theorem leafOk_lrw (v : String) : leafOk (LowerReservedWords v) := by
  by_cases hmem : ToLowerCase v ∈ reservedWords
  · rw [show LowerReservedWords v = ToLowerCase v by simp only [LowerReservedWords, if_pos hmem]]
    simp only [reservedWords, List.mem_cons, List.not_mem_nil, or_false] at hmem
    rcases hmem with h | h | h | h | h | h | h | h | h | h | h | h | h <;> rw [h] <;> decide
  · rw [show LowerReservedWords v = v by simp only [LowerReservedWords, if_neg hmem]]
    intro habs
    exact absurd habs hmem

/-- On a constructor-normalized value, `mkLeaf` rebuilds the same leaf. -/
theorem mkLeaf_of_leafOk {v : String} (h : leafOk v) : mkLeaf v = .leaf v := by
  unfold mkLeaf
  rw [lrw_of_leafOk h]

/-- C7: reserved-word normalization happens once, at leaf construction: the
constructed leaf stores the lowercased value exactly when that lowering is
one of the 13 keywords, and the original value otherwise; consequently the
all-caps keyword list parses and re-serializes with every keyword lowered
and `NOT_RESERVED` untouched. -/
theorem c7_reserved_word_normalization :
    (∀ v : String,
      mkLeaf v = .leaf (if ToLowerCase v ∈ reservedWords then ToLowerCase v else v)) ∧
    (Parse "(ROLE INIT TRUE DOES LEGAL NEXT TERMINAL GOAL BASE INPUT OR NOT DISTINCT NOT_RESERVED)"
          false).map (List.map TreeNode.toSexpr) =
      some ["(role init true does legal next terminal goal base input or not distinct NOT_RESERVED)"] :=
  ⟨fun _ => rfl, rfl⟩

/-- The five-clause GDL test program. -/
def demoInput : String :=
  "(role player) fact1 (fact2 1) (<= rule1 fact1) (<= (rule2 ?x) fact1 (fact2 ?x))"

/-- A single-quoted rendition of a string. -/
def quo (s : String) : String := sq ++ s ++ sq

/-- C2: the five parsed clauses render exactly as stated, unquoted and
quoted (variables stay unquoted), and `ToProlog` emits them each followed
by a newline. -/
theorem c2_prolog_clause_generation :
    (Parse demoInput false).map (List.map (fun t => t.toPrologClause false "" "")) =
      some [some "role(player).", some "fact1.", some "fact2(1).",
        some "rule1 :- fact1.", some "rule2(_x) :- fact1, fact2(_x)."] ∧
    (Parse demoInput false).map (List.map (fun t => t.toPrologClause true "" "")) =
      some [some (quo "role" ++ "(" ++ quo "player" ++ ")."),
        some (quo "fact1" ++ "."),
        some (quo "fact2" ++ "(" ++ quo "1" ++ ")."),
        some (quo "rule1" ++ " :- " ++ quo "fact1" ++ "."),
        some (quo "rule2" ++ "(_x) :- " ++ quo "fact1" ++ ", " ++ quo "fact2" ++ "(_x).")] ∧
    (Parse demoInput false).bind (fun ns => ToProlog ns false "" "" false) =
      some "role(player).\nfact1.\nfact2(1).\nrule1 :- fact1.\nrule2(_x) :- fact1, fact2(_x).\n" ∧
    (Parse demoInput false).bind (fun ns => ToProlog ns true "" "" false) =
      some (quo "role" ++ "(" ++ quo "player" ++ ").\n" ++ quo "fact1" ++ ".\n" ++
        quo "fact2" ++ "(" ++ quo "1" ++ ").\n" ++ quo "rule1" ++ " :- " ++ quo "fact1" ++
        ".\n" ++ quo "rule2" ++ "(_x) :- " ++ quo "fact1" ++ ", " ++ quo "fact2" ++ "(_x).\n") :=
  ⟨rfl, rfl, rfl, rfl⟩

/-- C8: on a variable leaf (value starting with `?`), the Prolog atom drops
the `?`, rewrites every character that is neither ASCII-alphanumeric nor
`_` into `_c<code>_`, prepends `_`, and ignores both the quoting flag and
the atom prefix. -/
theorem c8_variable_atom_encoding (v : String) (cs : List Char)
    (h : v.data = '?' :: cs) (quotes : Bool) (apre : String) :
    TreeNode.toPrologAtom (.leaf v) quotes apre =
      some ("_" ++ (cs.map (fun c =>
        if isAlnumChar c || c = '_' then String.singleton c
        else "_c" ++ toString c.toNat ++ "_")).foldr (· ++ ·) "") := by
  obtain ⟨data⟩ := v
  simp only [String.data] at h
  subst h
  simp only [TreeNode.toPrologAtom, ConvertToPrologAtom, Option.some.injEq]
  congr 1
  induction cs with
  | nil => rfl
  | cons c cs ih => simp only [FilterVariableName, List.map_cons, List.foldr_cons, ih]

/-- C8 witness: the variable leaf `?v+v` encodes to `_v_c43_v`. -/
theorem c8_variable_atom_encoding_witness :
    TreeNode.toPrologAtom (.leaf "?v+v") false "" = some "_v_c43_v" :=
  (c8_variable_atom_encoding "?v+v" ['v', '+', 'v'] rfl false "").trans rfl

/-! ### Parse failure characterization (claim C3) -/

/-- Paren-depth scan of a token sequence: `(` opens, `)` closes at positive
depth and is an ordinary token at depth 0; the scan reports whether the
tokens end with a `(` still open. -/
def unclosedParen : List String → Nat → Bool
  | [], d => decide (0 < d)
  | tok :: ts, d =>
    if tok = "(" then unclosedParen ts (d + 1)
    else if tok = ")" then unclosedParen ts (d - 1)
    else unclosedParen ts d

/-- `parseLoop` fails exactly when the tokens run out at positive depth. -/
theorem parseLoop_eq_none_iff (f : Bool) :
    ∀ (ts : List String) (acc : List TreeNode) (stack : List (List TreeNode)),
      parseLoop f ts acc stack = none ↔ unclosedParen ts stack.length = true := by
  intro ts
  induction ts with
  | nil =>
    intro acc stack
    cases stack <;> simp [parseLoop, unclosedParen]
  | cons tok ts ih =>
    intro acc stack
    by_cases h1 : tok = "("
    · subst h1
      simpa [parseLoop, unclosedParen] using ih [] (acc :: stack)
    · by_cases h2 : tok = ")"
      · subst h2
        cases stack with
        | nil => simpa [parseLoop, unclosedParen, h1] using ih (mkLeaf ")" :: acc) []
        | cons pa st =>
          simpa [parseLoop, unclosedParen, h1] using ih (mkNode f acc.reverse :: pa) st
      · simpa [parseLoop, unclosedParen, h1, h2] using ih (mkLeaf tok :: acc) stack

/-- C3 (amended): `Parse` fails exactly when end of input is reached while
a `(` is still awaiting its `)`. A `)` with no matching `(` at top level is
not an error (see the counterexample: it is consumed as a leaf token). -/
theorem c3_parse_failure_characterization (s : String) (f : Bool) :
    Parse s f = none ↔ unclosedParen (tokenize (RemoveComments s)) 0 = true :=
  parseLoop_eq_none_iff f (tokenize (RemoveComments s)) [] []

/-- C3 counterexample: on the input `")"`, whose `)` has no matching `(` at
top level, `Parse` does not fail: it returns the one-leaf forest `[")"]`. -/
theorem c3_top_level_rparen_counterexample :
    Parse ")" false = some [.leaf ")"] ∧
      some [TreeNode.leaf ")"] ≠ (none : Option (List TreeNode)) :=
  ⟨rfl, by simp⟩

/-! ### Atom substitution (claim C4) -/

mutual

/-- Shape-preserving leaf-value map, the specification-side description of
substitution. -/
def mapLeafValues (f : String → String) : TreeNode → TreeNode
  | .leaf v => .leaf (f v)
  | .node cs => .node (mapLeafValuesList f cs)

/-- `mapLeafValues` over a children list. -/
def mapLeafValuesList (f : String → String) : List TreeNode → List TreeNode
  | [] => []
  | t :: ts => mapLeafValues f t :: mapLeafValuesList f ts

end

/-- List step for the substitution characterization. -/
theorem replaceAtomsList_eq (f : String → String) (b a : String) :
    ∀ cs : List TreeNode,
      (∀ t ∈ cs, t.ReplaceAtoms b a = mapLeafValues f t) →
      replaceAtomsList cs b a = mapLeafValuesList f cs := by
  intro cs
  induction cs with
  | nil => intro _; rfl
  | cons t ts ih =>
    intro h
    simp only [replaceAtomsList, mapLeafValuesList]
    rw [h t (by simp), ih (fun u hu => h u (by simp [hu]))]

/-- C4 (amended): substitution returns a tree of identical shape in which
every leaf equal to `before` becomes a leaf storing
`LowerReservedWords after` — the replacement value passes through the leaf
constructor and IS re-normalized against the reserved words — and every
other leaf and all compound structure are copied unchanged. -/
theorem c4_replace_atoms (t : TreeNode) (h : Wf t) (b a : String) :
    t.ReplaceAtoms b a =
      mapLeafValues (fun v => if v = b then LowerReservedWords a else v) t := by
  induction h with
  | leaf hok =>
    rename_i v
    simp only [TreeNode.ReplaceAtoms, mapLeafValues]
    by_cases hvb : v = b
    · rw [if_pos hvb, if_pos hvb]
      rfl
    · rw [if_neg hvb, if_neg hvb]
      exact mkLeaf_of_leafOk hok
  | node hcs ih =>
    rename_i cs
    simp only [TreeNode.ReplaceAtoms, mapLeafValues]
    exact congrArg TreeNode.node (replaceAtomsList_eq _ b a cs ih)

/-- C4 witness: substitution characterized on the leaf `"x"`. -/
theorem c4_replace_atoms_witness :
    (TreeNode.leaf "x").ReplaceAtoms "x" "fact3" =
      mapLeafValues (fun v => if v = "x" then LowerReservedWords "fact3" else v)
        (TreeNode.leaf "x") :=
  c4_replace_atoms (.leaf "x") (.leaf (by decide)) "x" "fact3"

/-- C4 counterexample: an uppercase reserved word passed as `after` is NOT
stored verbatim — replacing `"a"` by `"ROLE"` stores `"role"`. -/
theorem c4_replacement_renormalized_counterexample :
    (TreeNode.leaf "a").ReplaceAtoms "a" "ROLE" = .leaf "role" ∧
      TreeNode.leaf "role" ≠ .leaf "ROLE" :=
  ⟨rfl, fun h => absurd (TreeNode.leaf.inj h) (by decide)⟩

/-! ### The construction invariant (claim C9) -/

/-- Every leaf the constructor builds is well-formed. -/
theorem wf_mkLeaf (v : String) : Wf (mkLeaf v) := .leaf (leafOk_lrw v)

/-- `mkNode` preserves well-formedness. -/
theorem wf_mkNode (f : Bool) (cs : List TreeNode) (h : ∀ t ∈ cs, Wf t) :
    Wf (mkNode f cs) := by
  unfold mkNode
  split
  · split
    · rename_i c
      exact h c (by simp)
    · exact .node h
  · exact .node h

/-- Every tree `parseLoop` returns is built from well-formed pieces. -/
theorem parseLoop_wf (f : Bool) :
    ∀ (ts : List String) (acc : List TreeNode) (stack : List (List TreeNode))
      (res : List TreeNode),
      (∀ t ∈ acc, Wf t) → (∀ l ∈ stack, ∀ t ∈ l, Wf t) →
      parseLoop f ts acc stack = some res → ∀ t ∈ res, Wf t := by
  intro ts
  induction ts with
  | nil =>
    intro acc stack res hacc _ hres
    cases stack with
    | nil =>
      simp only [parseLoop, Option.some.injEq] at hres
      subst hres
      intro t ht
      exact hacc t (List.mem_reverse.mp ht)
    | cons _ _ => simp [parseLoop] at hres
  | cons tok ts ih =>
    intro acc stack res hacc hstack hres
    by_cases h1 : tok = "("
    · subst h1
      simp only [parseLoop, if_pos rfl] at hres
      refine ih [] (acc :: stack) res (by simp) ?_ hres
      intro l hl
      rcases List.mem_cons.mp hl with e | e
      · exact e ▸ hacc
      · exact hstack l e
    · by_cases h2 : tok = ")"
      · subst h2
        simp only [parseLoop, if_neg h1, if_pos rfl] at hres
        cases stack with
        | nil =>
          refine ih _ [] res ?_ (by simp) hres
          intro t ht
          rcases List.mem_cons.mp ht with e | e
          · exact e ▸ wf_mkLeaf ")"
          · exact hacc t e
        | cons pa st =>
          refine ih _ st res ?_ (fun l hl => hstack l (by simp [hl])) hres
          intro t ht
          rcases List.mem_cons.mp ht with e | e
          · refine e ▸ wf_mkNode f acc.reverse ?_
            intro u hu
            exact hacc u (List.mem_reverse.mp hu)
          · exact hstack pa (by simp) t e
      · simp only [parseLoop, if_neg h1, if_neg h2] at hres
        refine ih _ stack res ?_ hstack hres
        intro t ht
        rcases List.mem_cons.mp ht with e | e
        · exact e ▸ wf_mkLeaf tok
        · exact hacc t e

/-- `replaceAtomsList` is the elementwise substitution. -/
theorem replaceAtomsList_eq_map (b a : String) :
    ∀ cs : List TreeNode, replaceAtomsList cs b a = cs.map (·.ReplaceAtoms b a) := by
  intro cs
  induction cs with
  | nil => rfl
  | cons t ts ih => simp [replaceAtomsList, ih]

/-- Substitution preserves well-formedness. -/
theorem wf_replaceAtoms (t : TreeNode) (h : Wf t) (b a : String) :
    Wf (t.ReplaceAtoms b a) := by
  induction h with
  | leaf hok =>
    rename_i v
    simp only [TreeNode.ReplaceAtoms]
    split
    · exact wf_mkLeaf a
    · exact wf_mkLeaf v
  | node hcs ih =>
    rename_i cs
    simp only [TreeNode.ReplaceAtoms]
    refine .node ?_
    rw [replaceAtomsList_eq_map]
    intro u hu
    obtain ⟨w, hw, rfl⟩ := List.mem_map.mp hu
    exact ih w hw

/-- C9: every construction path normalizes leaf values — `Parse`,
`ParseKIF`, direct leaf construction and `ReplaceAtoms` only produce trees
in which any leaf whose lowercasing is reserved already stores that
lowercase form. -/
theorem c9_construction_invariant :
    (∀ (s : String) (f : Bool) (ts : List TreeNode),
      Parse s f = some ts → ∀ t ∈ ts, Wf t) ∧
    (∀ (s : String) (ts : List TreeNode), ParseKIF s = some ts → ∀ t ∈ ts, Wf t) ∧
    (∀ v : String, Wf (mkLeaf v)) ∧
    (∀ t : TreeNode, Wf t → ∀ b a : String, Wf (t.ReplaceAtoms b a)) := by
  refine ⟨?_, ?_, wf_mkLeaf, wf_replaceAtoms⟩
  · intro s f ts h
    exact parseLoop_wf f _ [] [] ts (by simp) (by simp) h
  · intro s ts h
    exact parseLoop_wf true _ [] [] ts (by simp) (by simp) h

/-- C9 witness: the invariant instantiated on the parse of `"(ROLE x)"`. -/
theorem c9_construction_invariant_witness :
    Wf (TreeNode.node [.leaf "role", .leaf "x"]) :=
  c9_construction_invariant.1 "(ROLE x)" false [.node [.leaf "role", .leaf "x"]] rfl
    (.node [.leaf "role", .leaf "x"]) (by simp)

/-! ### Functor-atom merge order (claim C5) -/

mutual

/-- The functor occurrences of a tree, in traversal order: the node's own
functor (unless it is `<=`) with arity `children − 1`, then the occurrences
of each compound argument, left to right. -/
def functorOccs : TreeNode → List (String × Nat)
  | .leaf _ => []
  | .node cs =>
    match cs with
    | .leaf v0 :: c1 :: rest =>
      (if v0 = "<=" then [] else [(v0, (c1 :: rest).length)]) ++ occsArgs (c1 :: rest)
    | _ => []

/-- Functor occurrences of an argument list (leaves contribute none). -/
def occsArgs : List TreeNode → List (String × Nat)
  | [] => []
  | t :: ts =>
    (match t with
     | .leaf _ => []
     | .node tcs => functorOccs (.node tcs)) ++ occsArgs ts

end

/-- Functor occurrences of a forest, in forest order. -/
def forestFunctorOccs : List TreeNode → List (String × Nat)
  | [] => []
  | n :: ns => functorOccs n ++ forestFunctorOccs ns

/-- The arity a functor map associates to a name: its first entry for the
name, if any. -/
def lookupArity (m : FunctorMap) (k : String) : Option Nat :=
  (m.find? (fun p => p.1 == k)).map Prod.snd

/-- The keys of a functor map are pairwise distinct. -/
def keysNodup (m : FunctorMap) : Prop := (m.map Prod.fst).Nodup

instance (m : FunctorMap) : Decidable (keysNodup m) := by
  unfold keysNodup
  infer_instance

/-- Lookup distributes over appending, first entry winning. -/
theorem lookupArity_append (m₁ m₂ : FunctorMap) (k : String) :
    lookupArity (m₁ ++ m₂) k = (lookupArity m₁ k).or (lookupArity m₂ k) := by
  unfold lookupArity
  rw [List.find?_append]
  cases List.find? (fun p => p.1 == k) m₁ <;> simp

/-- Lookup after `fmInsert`: the existing entries win. -/
theorem fmInsert_lookup (m : FunctorMap) (k' : String) (a : Nat) (k : String) :
    lookupArity (fmInsert m k' a) k = (lookupArity m k).or (lookupArity [(k', a)] k) := by
  unfold fmInsert
  split
  · rename_i hany
    by_cases hk : k = k'
    · subst hk
      have hsome : (List.find? (fun p => p.1 == k) m).isSome := by
        rw [List.find?_isSome]
        rw [List.any_eq_true] at hany
        obtain ⟨p, hp, hpk⟩ := hany
        exact ⟨p, hp, by simpa using hpk⟩
      obtain ⟨p, hp⟩ := Option.isSome_iff_exists.mp hsome
      simp [lookupArity, hp]
    · have hbeq : (k' == k) = false := by simp [Ne.symm hk]
      have hnone : lookupArity [(k', a)] k = none := by
        simp [lookupArity, List.find?, hbeq]
      rw [hnone, Option.or_none]
  · exact lookupArity_append m [(k', a)] k

/-- Lookup after a whole `fmMerge`: entries of the first map win. -/
theorem fmMerge_lookup :
    ∀ (m₂ m₁ : FunctorMap) (k : String),
      lookupArity (fmMerge m₁ m₂) k = (lookupArity m₁ k).or (lookupArity m₂ k) := by
  intro m₂
  induction m₂ with
  | nil =>
    intro m₁ k
    simp [fmMerge, lookupArity]
  | cons e m₂ ih =>
    intro m₁ k
    have step : fmMerge m₁ (e :: m₂) = fmMerge (fmInsert m₁ e.1 e.2) m₂ := by
      simp [fmMerge]
    rw [step, ih, fmInsert_lookup]
    have : lookupArity (e :: m₂) k = (lookupArity [(e.1, e.2)] k).or (lookupArity m₂ k) := by
      simpa using lookupArity_append [e] m₂ k
    rw [this, Option.or_assoc]

/-- `fmInsert` keeps the keys pairwise distinct. -/
theorem fmInsert_keysNodup (m : FunctorMap) (k : String) (a : Nat)
    (h : keysNodup m) : keysNodup (fmInsert m k a) := by
  unfold fmInsert
  split
  · exact h
  · rename_i hany
    unfold keysNodup at h ⊢
    simp only [List.map_append, List.map_cons, List.map_nil]
    rw [List.nodup_append]
    refine ⟨h, by simp, ?_⟩
    intro x hx hxk
    simp only [List.mem_singleton] at hxk
    subst hxk
    apply hany
    rw [List.any_eq_true]
    obtain ⟨p, hp, hpx⟩ := List.mem_map.mp hx
    exact ⟨p, hp, by simp [hpx]⟩

/-- `fmMerge` keeps the keys of its accumulator pairwise distinct. -/
theorem fmMerge_keysNodup :
    ∀ (m₂ m₁ : FunctorMap), keysNodup m₁ → keysNodup (fmMerge m₁ m₂) := by
  intro m₂
  induction m₂ with
  | nil => intro m₁ h; exact h
  | cons e m₂ ih =>
    intro m₁ h
    have step : fmMerge m₁ (e :: m₂) = fmMerge (fmInsert m₁ e.1 e.2) m₂ := by
      simp [fmMerge]
    rw [step]
    exact ih _ (fmInsert_keysNodup m₁ e.1 e.2 h)

/-- The functor-map characterization of one tree: lookups agree with the
first occurrence in traversal order, and keys stay distinct. -/
def CFASpec (t : TreeNode) : Prop :=
  ∀ m, t.CollectFunctorAtoms = some m →
    (∀ k, lookupArity m k = lookupArity (functorOccs t) k) ∧ keysNodup m

/-- The argument loop of `CollectFunctorAtoms` realizes first-occurrence
lookup relative to its accumulator. -/
theorem cfaArgs_spec :
    ∀ (ts : List TreeNode), (∀ t ∈ ts, CFASpec t) →
      ∀ (acc m : FunctorMap), cfaArgs acc ts = some m →
        (∀ k, lookupArity m k = (lookupArity acc k).or (lookupArity (occsArgs ts) k)) ∧
        (keysNodup acc → keysNodup m) := by
  intro ts
  induction ts with
  | nil =>
    intro _ acc m hm
    simp only [cfaArgs, Option.some.injEq] at hm
    subst hm
    exact ⟨fun k => by simp [occsArgs, lookupArity], fun h => h⟩
  | cons t ts ih =>
    intro h acc m hm
    cases t with
    | leaf v =>
      simp only [cfaArgs] at hm
      have := ih (fun u hu => h u (by simp [hu])) acc m hm
      refine ⟨fun k => ?_, this.2⟩
      rw [this.1 k]
      simp [occsArgs]
    | node tcs =>
      simp only [cfaArgs] at hm
      cases hc : TreeNode.CollectFunctorAtoms (.node tcs) with
      | none => rw [hc] at hm; cases hm
      | some mc =>
        rw [hc] at hm
        have hchild := h (.node tcs) (by simp) mc hc
        have hrest := ih (fun u hu => h u (by simp [hu])) (fmMerge acc mc) m hm
        constructor
        · intro k
          rw [hrest.1 k, fmMerge_lookup, hchild.1 k]
          have : occsArgs (TreeNode.node tcs :: ts) =
              functorOccs (.node tcs) ++ occsArgs ts := by
            simp [occsArgs]
          rw [this, lookupArity_append, Option.or_assoc]
        · intro hacc
          exact hrest.2 (fmMerge_keysNodup mc acc hacc)

/-- Every tree satisfies the functor-map characterization. -/
theorem cfa_spec : ∀ t, CFASpec t := by
  refine treeInd ?_ ?_
  · intro v m hm
    simp only [TreeNode.CollectFunctorAtoms, Option.some.injEq] at hm
    subst hm
    exact ⟨fun k => rfl, by simp [keysNodup]⟩
  · intro cs ih m hm
    cases cs with
    | nil => simp [TreeNode.CollectFunctorAtoms] at hm
    | cons c0 cs1 =>
      cases c0 with
      | node _ => simp [TreeNode.CollectFunctorAtoms] at hm
      | leaf v0 =>
        cases cs1 with
        | nil => simp [TreeNode.CollectFunctorAtoms] at hm
        | cons c1 rest =>
          simp only [TreeNode.CollectFunctorAtoms] at hm
          have hargs := cfaArgs_spec (c1 :: rest)
            (fun u hu => ih u (by simp [List.mem_cons.mp hu])) _ m hm
          constructor
          · intro k
            rw [hargs.1 k]
            have : functorOccs (.node (.leaf v0 :: c1 :: rest)) =
                (if v0 = "<=" then [] else [(v0, (c1 :: rest).length)]) ++
                  occsArgs (c1 :: rest) := by
              simp [functorOccs]
            rw [this, lookupArity_append]
          · exact hargs.2 (by split <;> simp [keysNodup])


/-- The forest loop realizes first-occurrence lookup relative to its
accumulator. -/
theorem cfaForest_spec :
    ∀ (ns : List TreeNode) (acc m : FunctorMap),
      CollectFunctorAtomsForest.go acc ns = some m →
        (∀ k, lookupArity m k =
          (lookupArity acc k).or (lookupArity (forestFunctorOccs ns) k)) ∧
        (keysNodup acc → keysNodup m) := by
  intro ns
  induction ns with
  | nil =>
    intro acc m hm
    simp only [CollectFunctorAtomsForest.go, Option.some.injEq] at hm
    subst hm
    exact ⟨fun k => by simp [forestFunctorOccs, lookupArity], fun h => h⟩
  | cons n ns ih =>
    intro acc m hm
    simp only [CollectFunctorAtomsForest.go] at hm
    cases hc : n.CollectFunctorAtoms with
    | none => rw [hc] at hm; cases hm
    | some mc =>
      rw [hc] at hm
      have hnode := cfa_spec n mc hc
      have hrest := ih (fmMerge acc mc) m hm
      constructor
      · intro k
        rw [hrest.1 k, fmMerge_lookup, hnode.1 k]
        have : forestFunctorOccs (n :: ns) = functorOccs n ++ forestFunctorOccs ns := by
          simp [forestFunctorOccs]
        rw [this, lookupArity_append, Option.or_assoc]
      · intro hacc
        exact hrest.2 (fmMerge_keysNodup mc acc hacc)

/-- C5 (amended): the merged mapping keeps exactly one arity per functor
name, and on a conflict the arity kept is that of the FIRST-seen occurrence
in traversal order (a node's own functor before its arguments, arguments
left to right, forest nodes in order): `unordered_map::insert`/`emplace`
never overwrite an existing key. -/
theorem c5_functor_arity_first_seen (nodes : List TreeNode) (m : FunctorMap)
    (h : CollectFunctorAtomsForest nodes = some m) :
    keysNodup m ∧ ∀ k, lookupArity m k = lookupArity (forestFunctorOccs nodes) k := by
  have hspec := cfaForest_spec nodes [] m h
  refine ⟨hspec.2 (by simp [keysNodup]), fun k => ?_⟩
  rw [hspec.1 k]
  simp [lookupArity]

/-- C5 counterexample: in the forest `[(f (f a b))]` the functor `f` occurs
with arity 1 (seen first) and arity 2 (seen last); the merged mapping keeps
the FIRST-seen arity 1, not the last-seen arity 2. -/
theorem c5_last_seen_counterexample :
    CollectFunctorAtomsForest
        [.node [.leaf "f", .node [.leaf "f", .leaf "a", .leaf "b"]]] =
      some [("f", 1)] ∧
    (forestFunctorOccs
        [.node [.leaf "f", .node [.leaf "f", .leaf "a", .leaf "b"]]]).getLast? =
      some ("f", 2) ∧
    lookupArity [("f", 1)] "f" ≠ some 2 :=
  ⟨rfl, rfl, by decide⟩

/-- C5 witness: the characterization applied to the forest
`[(g a), (g a b)]`. -/
theorem c5_functor_arity_first_seen_witness :
    keysNodup [("g", 1)] ∧
      lookupArity [("g", 1)] "g" =
        lookupArity
          (forestFunctorOccs
            [.node [.leaf "g", .leaf "a"], .node [.leaf "g", .leaf "a", .leaf "b"]]) "g" := by
  have h := c5_functor_arity_first_seen
    [.node [.leaf "g", .leaf "a"], .node [.leaf "g", .leaf "a", .leaf "b"]]
    [("g", 1)] rfl
  exact ⟨h.1, h.2 "g"⟩

/-! ### Canonical orientation of body pairs (claim C10) -/

/-- The comparator is irreflexive. -/
theorem argPosLt_irrefl (p : ArgPos) : ¬argPosLt p p := by
  unfold argPosLt
  rw [if_pos rfl]
  omega

/-- Characters with equal codes are equal. -/
theorem char_toNat_inj {a b : Char} (h : a.toNat = b.toNat) : a = b :=
  Char.eq_of_val_eq (UInt32.toNat.inj h)

/-- Strings with equal character lists are equal. -/
theorem string_data_inj {s t : String} (h : s.data = t.data) : s = t := by
  cases s
  cases t
  exact congrArg String.mk h

/-- Lexicographic comparison is irreflexive. -/
theorem charListLt_irrefl : ∀ l : List Char, charListLt l l = false := by
  intro l
  induction l with
  | nil => rfl
  | cons a as ih => simp [charListLt, ih]

/-- Lexicographic comparison is transitive. -/
theorem charListLt_trans :
    ∀ {l₁ l₂ l₃ : List Char}, charListLt l₁ l₂ = true → charListLt l₂ l₃ = true →
      charListLt l₁ l₃ = true := by
  intro l₁
  induction l₁ with
  | nil =>
    intro l₂ l₃ h1 h2
    cases l₂ with
    | nil => cases h1
    | cons b bs =>
      cases l₃ with
      | nil => cases h2
      | cons c cs => rfl
  | cons a as ih =>
    intro l₂ l₃ h1 h2
    cases l₂ with
    | nil => cases h1
    | cons b bs =>
      cases l₃ with
      | nil => cases h2
      | cons c cs =>
        simp only [charListLt] at h1 h2 ⊢
        by_cases hab : a.toNat < b.toNat <;> by_cases hbc : b.toNat < c.toNat
        · rw [if_pos (by omega)]
        · rw [if_neg hbc] at h2
          by_cases hcb : c.toNat < b.toNat
          · rw [if_pos hcb] at h2
            cases h2
          · rw [if_pos (by omega)]
        · rw [if_neg hab] at h1
          by_cases hba : b.toNat < a.toNat
          · rw [if_pos hba] at h1
            cases h1
          · rw [if_pos (by omega)]
        · rw [if_neg hab] at h1
          rw [if_neg hbc] at h2
          by_cases hba : b.toNat < a.toNat
          · rw [if_pos hba] at h1
            cases h1
          · by_cases hcb : c.toNat < b.toNat
            · rw [if_pos hcb] at h2
              cases h2
            · rw [if_neg hba] at h1
              rw [if_neg hcb] at h2
              rw [if_neg (by omega), if_neg (by omega)]
              exact ih h1 h2

/-- Lexicographic comparison is trichotomous. -/
theorem charListLt_total :
    ∀ l₁ l₂ : List Char, charListLt l₁ l₂ = true ∨ l₁ = l₂ ∨ charListLt l₂ l₁ = true := by
  intro l₁
  induction l₁ with
  | nil =>
    intro l₂
    cases l₂ with
    | nil => exact .inr (.inl rfl)
    | cons b bs => exact .inl rfl
  | cons a as ih =>
    intro l₂
    cases l₂ with
    | nil => exact .inr (.inr rfl)
    | cons b bs =>
      by_cases hab : a.toNat < b.toNat
      · exact .inl (by simp [charListLt, hab])
      · by_cases hba : b.toNat < a.toNat
        · refine .inr (.inr ?_)
          simp only [charListLt]
          rw [if_pos hba]
        · have heq : a = b := char_toNat_inj (by omega)
          subst heq
          rcases ih bs with h | h | h
          · refine .inl ?_
            simp only [charListLt]
            rw [if_neg (by omega), if_neg (by omega)]
            exact h
          · exact .inr (.inl (by rw [h]))
          · refine .inr (.inr ?_)
            simp only [charListLt]
            rw [if_neg (by omega), if_neg (by omega)]
            exact h

/-- `strLt` never relates a string to itself. -/
theorem strLt_ne {s t : String} (h : strLt s t) : s ≠ t := by
  intro e
  subst e
  unfold strLt at h
  rw [charListLt_irrefl] at h
  cases h

/-- The comparator is transitive. -/
theorem argPosLt_trans : ∀ {p q r : ArgPos}, argPosLt p q → argPosLt q r → argPosLt p r := by
  rintro ⟨ps, pn⟩ ⟨qs, qn⟩ ⟨rs, rn⟩ h1 h2
  simp only [argPosLt] at h1 h2 ⊢
  by_cases e1 : ps = qs <;> by_cases e2 : qs = rs
  · subst e1; subst e2
    rw [if_pos rfl] at h1 h2 ⊢
    omega
  · subst e1
    rw [if_neg e2] at h2 ⊢
    exact h2
  · subst e2
    rw [if_neg e1] at h1 ⊢
    exact h1
  · rw [if_neg e1] at h1
    rw [if_neg e2] at h2
    have hlt : strLt ps rs := charListLt_trans h1 h2
    rw [if_neg (strLt_ne hlt)]
    exact hlt

instance : IsTrans ArgPos argPosLe where
  trans := by
    rintro p q r (h1 | rfl) (h2 | rfl)
    · exact .inl (argPosLt_trans h1 h2)
    · exact .inl h1
    · exact .inl h2
    · exact .inr rfl

instance : IsTotal ArgPos argPosLe where
  total := by
    rintro ⟨ps, pn⟩ ⟨qs, qn⟩
    unfold argPosLe argPosLt
    rcases charListLt_total ps.data qs.data with h | h | h
    · exact .inl (.inl (by rw [if_neg (strLt_ne h)]; exact h))
    · have heq : ps = qs := string_data_inj h
      subst heq
      rcases Nat.lt_trichotomy pn qn with h | h | h
      · exact .inl (.inl (by rw [if_pos rfl]; exact h))
      · subst h
        exact .inl (.inr rfl)
      · exact .inr (.inl (by rw [if_pos rfl]; exact h))
    · exact .inr (.inl (by rw [if_neg (strLt_ne h)]; exact h))

/-- Sorting a duplicate-free position list yields a strictly ascending
list. -/
theorem sortPositions_pairwise_lt (ps : List ArgPos) (h : ps.Nodup) :
    (sortPositions ps).Pairwise argPosLt := by
  have hs : List.Sorted argPosLe (sortPositions ps) := List.sorted_insertionSort argPosLe ps
  have hn : (sortPositions ps).Nodup := ((List.perm_insertionSort argPosLe ps).nodup_iff).mpr h
  exact (List.Pairwise.and hs hn).imp (fun h => h.1.resolve_right h.2)

/-- Every pair the double loop emits respects a pairwise relation of its
input list. -/
theorem allPairs_mem {R : ArgPos → ArgPos → Prop} :
    ∀ l : List ArgPos, l.Pairwise R → ∀ pq ∈ allPairs l, R pq.1 pq.2 := by
  intro l
  induction l with
  | nil => intro _ pq hm; simp [allPairs] at hm
  | cons p ps ih =>
    intro hp pq hm
    rw [List.pairwise_cons] at hp
    simp only [allPairs, List.mem_append] at hm
    rcases hm with hm | hm
    · obtain ⟨q, hq, rfl⟩ := List.mem_map.mp hm
      exact hp.1 q hq
    · exact ih hp.2 pq hm

/-- Membership after a set `emplace`. -/
theorem ppInsert_mem {s : List ArgPosPair} {q p : ArgPosPair} (h : p ∈ ppInsert s q) :
    p ∈ s ∨ p = q := by
  unfold ppInsert at h
  split at h
  · exact .inl h
  · rcases List.mem_append.mp h with h | h
    · exact .inl h
    · exact .inr (by simpa using h)

/-- Membership after a set range-insert. -/
theorem ppUnion_mem :
    ∀ (l acc : List ArgPosPair) (p : ArgPosPair), p ∈ ppUnion acc l → p ∈ acc ∨ p ∈ l := by
  intro l
  induction l with
  | nil => intro acc p h; exact .inl h
  | cons q l ih =>
    intro acc p h
    have step : ppUnion acc (q :: l) = ppUnion (ppInsert acc q) l := by simp [ppUnion]
    rw [step] at h
    rcases ih _ p h with h | h
    · rcases ppInsert_mem h with h | h
      · exact .inl h
      · exact .inr (by simp [h])
    · exact .inr (by simp [h])

/-- Every emitted in-body pair comes from the all-pairs loop of some
variable entry. -/
theorem vapB_fold_mem :
    ∀ (m : VarMap) (acc : List ArgPosPair) (p : ArgPosPair),
      p ∈ m.foldl
          (fun res e =>
            if e.2.length = 1 then res
            else ppUnion res (allPairs (sortPositions e.2))) acc →
      p ∈ acc ∨ ∃ e ∈ m, p ∈ allPairs (sortPositions e.2) := by
  intro m
  induction m with
  | nil => intro acc p h; exact .inl h
  | cons e m ih =>
    intro acc p h
    rw [List.foldl_cons] at h
    rcases ih _ p h with h | h
    · by_cases hl : e.2.length = 1
      · rw [if_pos hl] at h
        exact .inl h
      · rw [if_neg hl] at h
        rcases ppUnion_mem _ acc p h with h | h
        · exact .inl h
        · exact .inr ⟨e, by simp, h⟩
    · obtain ⟨e2, he2, hp⟩ := h
      exact .inr ⟨e2, by simp [he2], hp⟩

/-- Membership in the one-map pair construction. -/
theorem vapB_mem (m : VarMap) (p : ArgPosPair) (h : p ∈ VariableArgPosToArgPosPairsB m) :
    ∃ e ∈ m, p ∈ allPairs (sortPositions e.2) := by
  rcases vapB_fold_mem m [] p h with h | h
  · simp at h
  · exact h

/-- `posInsert` keeps a position set duplicate-free. -/
theorem posInsert_nodup {s : List ArgPos} (h : s.Nodup) (p : ArgPos) :
    (posInsert s p).Nodup := by
  unfold posInsert
  split
  · exact h
  · rename_i hmem
    simp [List.nodup_append, h, hmem]

/-- `posUnion` keeps the accumulating position set duplicate-free. -/
theorem posUnion_nodup :
    ∀ (s₂ s₁ : List ArgPos), s₁.Nodup → (posUnion s₁ s₂).Nodup := by
  intro s₂
  induction s₂ with
  | nil => intro s₁ h; exact h
  | cons p s₂ ih =>
    intro s₁ h
    have step : posUnion s₁ (p :: s₂) = posUnion (posInsert s₁ p) s₂ := by simp [posUnion]
    rw [step]
    exact ih _ (posInsert_nodup h p)

/-- All inner sets of a variable map stay duplicate-free under `vmAdd`. -/
theorem vmAdd_nodup {m : VarMap} (h : ∀ e ∈ m, e.2.Nodup) (v : String) (p : ArgPos) :
    ∀ e ∈ vmAdd m v p, e.2.Nodup := by
  unfold vmAdd
  split
  · intro e he
    obtain ⟨e0, he0, rfl⟩ := List.mem_map.mp he
    split
    · exact posInsert_nodup (h e0 he0) p
    · exact h e0 he0
  · intro e he
    rcases List.mem_append.mp he with he | he
    · exact h e he
    · simp only [List.mem_singleton] at he
      subst he
      simp

/-- All inner sets stay duplicate-free under a one-entry merge. -/
theorem vmMergeEntry_nodup {m : VarMap} (h : ∀ e ∈ m, e.2.Nodup) (v : String)
    (ps : List ArgPos) (hps : ps.Nodup) : ∀ e ∈ vmMergeEntry m v ps, e.2.Nodup := by
  unfold vmMergeEntry
  split
  · intro e he
    obtain ⟨e0, he0, rfl⟩ := List.mem_map.mp he
    split
    · exact posUnion_nodup ps e0.2 (h e0 he0)
    · exact h e0 he0
  · intro e he
    rcases List.mem_append.mp he with he | he
    · exact h e he
    · simp only [List.mem_singleton] at he
      subst he
      exact hps

/-- All inner sets stay duplicate-free under a whole-map merge. -/
theorem vmMerge_nodup :
    ∀ (m₂ m₁ : VarMap), (∀ e ∈ m₁, e.2.Nodup) → (∀ e ∈ m₂, e.2.Nodup) →
      ∀ e ∈ vmMerge m₁ m₂, e.2.Nodup := by
  intro m₂
  induction m₂ with
  | nil => intro m₁ h1 _ e he; exact h1 e he
  | cons e2 m₂ ih =>
    intro m₁ h1 h2 e he
    have step : vmMerge m₁ (e2 :: m₂) = vmMerge (vmMergeEntry m₁ e2.1 e2.2) m₂ := by
      simp [vmMerge]
    rw [step] at he
    refine ih _ ?_ (fun u hu => h2 u (by simp [hu])) e he
    exact vmMergeEntry_nodup h1 e2.1 e2.2 (h2 e2 (by simp))

/-- The nodup invariant of `CollectVariableArgs`. -/
def VANodup (t : TreeNode) : Prop :=
  ∀ m, t.CollectVariableArgs = some m → ∀ e ∈ m, e.2.Nodup

/-- The argument loop of `CollectVariableArgs` keeps all inner sets
duplicate-free. -/
theorem cvaArgs_nodup :
    ∀ (ts : List TreeNode), (∀ t ∈ ts, VANodup t) →
      ∀ (f : String) (idx : Nat) (acc m : VarMap), (∀ e ∈ acc, e.2.Nodup) →
        cvaArgs f idx acc ts = some m → ∀ e ∈ m, e.2.Nodup := by
  intro ts
  induction ts with
  | nil =>
    intro _ f idx acc m hacc hm
    simp only [cvaArgs, Option.some.injEq] at hm
    subst hm
    exact hacc
  | cons t ts ih =>
    intro h f idx acc m hacc hm
    cases t with
    | leaf v =>
      simp only [cvaArgs] at hm
      split at hm
      · exact ih (fun u hu => h u (by simp [hu])) f (idx + 1) _ m
          (vmAdd_nodup hacc v (f, idx)) hm
      · exact ih (fun u hu => h u (by simp [hu])) f (idx + 1) acc m hacc hm
    | node tcs =>
      simp only [cvaArgs] at hm
      cases hc : TreeNode.CollectVariableArgs (.node tcs) with
      | none => rw [hc] at hm; cases hm
      | some mc =>
        rw [hc] at hm
        have hmc := h (.node tcs) (by simp) mc hc
        exact ih (fun u hu => h u (by simp [hu])) f (idx + 1) _ m
          (vmMerge_nodup mc acc hacc hmc) hm

/-- Every tree keeps its variable-argument sets duplicate-free. -/
theorem cva_nodup : ∀ t, VANodup t := by
  refine treeInd ?_ ?_
  · intro v m hm
    cases hm
  · intro cs ih m hm
    cases cs with
    | nil => simp [TreeNode.CollectVariableArgs] at hm
    | cons c0 cs1 =>
      cases c0 with
      | node _ => simp [TreeNode.CollectVariableArgs] at hm
      | leaf f =>
        cases cs1 with
        | nil => simp [TreeNode.CollectVariableArgs] at hm
        | cons c1 rest =>
          simp only [TreeNode.CollectVariableArgs] at hm
          exact cvaArgs_nodup (c1 :: rest)
            (fun u hu => ih u (by simp [List.mem_cons.mp hu])) f 1 [] m (by simp) hm

/-- The body loop keeps all inner sets duplicate-free. -/
theorem bodyVarArgs_nodup :
    ∀ (ts : List TreeNode) (acc m : VarMap), (∀ e ∈ acc, e.2.Nodup) →
      bodyVarArgs acc ts = some m → ∀ e ∈ m, e.2.Nodup := by
  intro ts
  induction ts with
  | nil =>
    intro acc m hacc hm
    simp only [bodyVarArgs, Option.some.injEq] at hm
    subst hm
    exact hacc
  | cons t ts ih =>
    intro acc m hacc hm
    cases t with
    | leaf v =>
      simp only [bodyVarArgs] at hm
      exact ih acc m hacc hm
    | node tcs =>
      simp only [bodyVarArgs] at hm
      cases hc : TreeNode.CollectVariableArgs (.node tcs) with
      | none => rw [hc] at hm; cases hm
      | some mc =>
        rw [hc] at hm
        exact ih _ m (vmMerge_nodup mc acc hacc (cva_nodup (.node tcs) mc hc)) hm

/-- C10: every pair `CollectSameDomainArgsInBody` returns has two distinct
components in strictly ascending comparator order (by functor name, then
argument index): pairs are canonically oriented and never self-pairs. -/
theorem c10_body_pairs_canonical (t : TreeNode) (pairs : List ArgPosPair)
    (h : t.CollectSameDomainArgsInBody = some pairs) :
    ∀ p ∈ pairs, argPosLt p.1 p.2 ∧ p.1 ≠ p.2 := by
  intro p hp
  cases t with
  | leaf v => cases h
  | node cs =>
    cases cs with
    | nil => simp [TreeNode.CollectSameDomainArgsInBody] at h
    | cons c0 cs1 =>
      cases c0 with
      | node _ => simp [TreeNode.CollectSameDomainArgsInBody] at h
      | leaf f =>
        cases cs1 with
        | nil => simp [TreeNode.CollectSameDomainArgsInBody] at h
        | cons c1 rest =>
          simp only [TreeNode.CollectSameDomainArgsInBody] at h
          by_cases hf : f = "<="
          · rw [if_pos hf] at h
            cases hb : bodyVarArgs [] rest with
            | none => rw [hb] at h; cases h
            | some m =>
              rw [hb] at h
              simp only [Option.some.injEq] at h
              subst h
              obtain ⟨e, hem, hpe⟩ := vapB_mem m p hp
              have hnodup : e.2.Nodup := bodyVarArgs_nodup rest [] m (by simp) hb e hem
              have hpl := allPairs_mem _ (sortPositions_pairwise_lt e.2 hnodup) p hpe
              refine ⟨hpl, fun heq => absurd (heq ▸ hpl) (argPosLt_irrefl p.2)⟩
          · rw [if_neg hf] at h
            cases h

/-- C10 witness: on the rule `(<= hh (p ?x) (q ?x))` the single returned
pair is strictly ascending. -/
theorem c10_body_pairs_canonical_witness :
    argPosLt ("p", 1) ("q", 1) ∧ (("p", 1) : ArgPos) ≠ ("q", 1) :=
  c10_body_pairs_canonical
    (.node [.leaf "<=", .leaf "hh", .node [.leaf "p", .leaf "?x"],
      .node [.leaf "q", .leaf "?x"]])
    [(("p", 1), ("q", 1))] rfl (("p", 1), ("q", 1)) (by simp)


/-! ### Helper-clause emission (claim C6) -/

/-- C6: given the collected functor map and the two accumulated same-domain
pair sets, the helper block contains exactly: a `user_defined_functor` line
for every collected functor whose name is not reserved, a `connected_args`
line for exactly those in-body pairs not already present in the head-body
pair set, and an `equivalent_args` line for every head-body pair. -/
theorem c6_helper_clause_lines (nodes : List TreeNode) (quotes : Bool) (fpre : String)
    (functors : FunctorMap) (inBody headBody : List ArgPosPair) (lines : List String)
    (hf : CollectFunctorAtomsForest nodes = some functors)
    (hp : collectRulePairs nodes ([], []) = some (inBody, headBody))
    (hl : GeneratePrologHelperLines nodes quotes fpre = some lines) :
    ∀ l, l ∈ lines ↔
      ((∃ p ∈ functors, p.1 ∉ reservedWords ∧ l = userFunctorLine quotes fpre p) ∨
       (∃ p ∈ inBody, p ∉ headBody ∧ l = connectedArgsLine quotes fpre p) ∨
       (∃ p ∈ headBody, l = equivalentArgsLine quotes fpre p)) := by
  unfold GeneratePrologHelperLines at hl
  rw [hf, hp] at hl
  simp only [Option.some.injEq] at hl
  subst hl
  intro l
  simp only [List.mem_append, List.mem_map, List.mem_filter, decide_eq_true_eq]
  constructor
  · rintro ((⟨p, ⟨hmem, hres⟩, rfl⟩ | ⟨p, ⟨hmem, hres⟩, rfl⟩) | ⟨p, hmem, rfl⟩)
    · exact .inl ⟨p, hmem, hres, rfl⟩
    · exact .inr (.inl ⟨p, hmem, hres, rfl⟩)
    · exact .inr (.inr ⟨p, hmem, rfl⟩)
  · rintro (⟨p, hmem, hres, rfl⟩ | ⟨p, hmem, hres, rfl⟩ | ⟨p, hmem, rfl⟩)
    · exact .inl (.inl ⟨p, ⟨hmem, hres⟩, rfl⟩)
    · exact .inl (.inr ⟨p, ⟨hmem, hres⟩, rfl⟩)
    · exact .inr ⟨p, hmem, rfl⟩

/-- C6 witness: the helper block of the one-rule forest
`[(<= (r2 ?x) (f2 ?x))]` contains the `equivalent_args` line of its single
head-body pair. -/
theorem c6_helper_clause_lines_witness :
    "equivalent_args(r2, 1, f2, 1)." ∈
      ["user_defined_functor(r2, 1).", "user_defined_functor(f2, 1).",
        "equivalent_args(r2, 1, f2, 1)."] :=
  (c6_helper_clause_lines
      [.node [.leaf "<=", .node [.leaf "r2", .leaf "?x"], .node [.leaf "f2", .leaf "?x"]]]
      false "" [("r2", 1), ("f2", 1)] [] [(("r2", 1), ("f2", 1))]
      ["user_defined_functor(r2, 1).", "user_defined_functor(f2, 1).",
        "equivalent_args(r2, 1, f2, 1)."]
      rfl rfl rfl "equivalent_args(r2, 1, f2, 1).").mpr
    (.inr (.inr ⟨(("r2", 1), ("f2", 1)), by simp, rfl⟩))


/-! ### Round-trip of serialization and parsing (claim C1) -/

mutual

/-- The token stream `ToSexpr` produces for one tree. -/
def sexprTokens : TreeNode → List String
  | .leaf v => [v]
  | .node cs => "(" :: sexprTokensList cs ++ [")"]

/-- The token stream of a children list. -/
def sexprTokensList : List TreeNode → List String
  | [] => []
  | t :: ts => sexprTokens t ++ sexprTokensList ts

end

/-- A character list that is empty or starts with a tokenizer separator. -/
def SepStartOrEmpty : List Char → Prop
  | [] => True
  | c :: _ => isSep c = true

/-- Flushing a nonempty reversed run yields the run as one token. -/
theorem flushTok_reverse (w : List Char) (h : w ≠ []) :
    flushTok w.reverse = [String.mk w] := by
  unfold flushTok
  rw [if_neg (by simp [List.isEmpty_iff, h]), List.reverse_reverse]

/-- A paren separator is not a whitespace separator. -/
theorem paren_not_space (c : Char) (hc : isParenSep c = true) : isSpaceSep c = false := by
  have h : c = '(' ∨ c = ')' := by simpa [isParenSep] using hc
  rcases h with h | h <;> subst h <;> decide

/-- A list starting with a separator is separator-started. -/
theorem sepStart_cons (c : Char) (h : isSep c = true) (cs : List Char) :
    SepStartOrEmpty (c :: cs) := h

/-- A whitespace separator at the start of the input produces no token. -/
theorem tokenizeAux_space (c : Char) (hc : isSpaceSep c = true) (cs : List Char) :
    tokenizeAux (c :: cs) [] = tokenizeAux cs [] := by
  simp [tokenizeAux, hc, flushTok]

/-- A paren separator at the start of the input is its own token. -/
theorem tokenizeAux_paren (c : Char) (hc : isParenSep c = true) (cs : List Char) :
    tokenizeAux (c :: cs) [] = String.mk [c] :: tokenizeAux cs [] := by
  simp [tokenizeAux, paren_not_space c hc, hc, flushTok]

/-- A run of non-separator characters accumulates. -/
theorem tokenizeAux_run :
    ∀ (w : List Char), (∀ c ∈ w, isSep c = false) →
      ∀ (cs acc : List Char), tokenizeAux (w ++ cs) acc = tokenizeAux cs (w.reverse ++ acc) := by
  intro w
  induction w with
  | nil => intro _ cs acc; simp
  | cons c w ih =>
    intro hw cs acc
    have hc : isSep c = false := hw c (by simp)
    have hsp : isSpaceSep c = false := by
      revert hc
      unfold isSep
      cases isSpaceSep c <;> simp
    have hpp : isParenSep c = false := by
      revert hc
      unfold isSep
      cases isParenSep c <;> cases isSpaceSep c <;> simp
    rw [List.cons_append]
    simp only [tokenizeAux, hsp, hpp, Bool.false_eq_true, if_false]
    rw [ih (fun d hd => hw d (by simp [hd])) cs (c :: acc)]
    simp

/-- A nonempty run of non-separator characters followed by a separator (or
by the end of the input) is one token. -/
theorem tokenizeAux_token (w : List Char) (hne : w ≠ [])
    (hw : ∀ c ∈ w, isSep c = false) (cs : List Char) (hcs : SepStartOrEmpty cs) :
    tokenizeAux (w ++ cs) [] = String.mk w :: tokenizeAux cs [] := by
  rw [tokenizeAux_run w hw cs [], List.append_nil]
  cases cs with
  | nil =>
    show flushTok w.reverse = String.mk w :: flushTok []
    rw [flushTok_reverse w hne]
    rfl
  | cons d ds =>
    have hd : isSep d = true := hcs
    simp only [tokenizeAux]
    by_cases hsp : isSpaceSep d = true
    · rw [if_pos hsp, if_pos hsp, flushTok_reverse w hne]
      simp [flushTok]
    · have hpp : isParenSep d = true := by
        revert hd
        unfold isSep
        simp only [Bool.not_eq_true] at hsp
        rw [hsp]
        simp
      rw [if_neg hsp, if_neg hsp, if_pos hpp, if_pos hpp, flushTok_reverse w hne]
      simp [flushTok]

/-- Comment removal is the identity on semicolon-free text. -/
theorem removeCommentsAux_id :
    ∀ (l : List Char), (∀ c ∈ l, c ≠ ';') → removeCommentsAux l false = l := by
  intro l
  induction l with
  | nil => intro _; rfl
  | cons c cs ih =>
    intro h
    have hc : ¬c = ';' := h c (by simp)
    simp only [removeCommentsAux, Bool.false_eq_true, if_false, if_neg hc]
    rw [ih (fun d hd => h d (by simp [hd]))]

/-- Tokenization specification of one serialized tree. -/
def TokSpec (t : TreeNode) : Prop :=
  ∀ cs, SepStartOrEmpty cs →
    tokenizeAux ((TreeNode.toSexpr t).data ++ cs) [] = sexprTokens t ++ tokenizeAux cs []

/-- Tokenization of a serialized children list. -/
theorem toSexprList_tokens :
    ∀ cs : List TreeNode, (∀ t ∈ cs, TokSpec t) →
      ∀ tail, SepStartOrEmpty tail →
        tokenizeAux ((toSexprList cs).data ++ tail) [] =
          sexprTokensList cs ++ tokenizeAux tail [] := by
  intro cs
  induction cs with
  | nil => intro _ tail _; simp [toSexprList, sexprTokensList]
  | cons t ts ih =>
    intro h tail htail
    cases ts with
    | nil =>
      have := h t (by simp) tail htail
      simpa [toSexprList, sexprTokensList] using this
    | cons t2 ts2 =>
      rw [show toSexprList (t :: t2 :: ts2) =
        TreeNode.toSexpr t ++ " " ++ toSexprList (t2 :: ts2) from rfl]
      rw [String.data_append, String.data_append, List.append_assoc, List.append_assoc]
      rw [show (" " : String).data ++ ((toSexprList (t2 :: ts2)).data ++ tail) =
        ' ' :: ((toSexprList (t2 :: ts2)).data ++ tail) from rfl]
      rw [h t (by simp) (' ' :: ((toSexprList (t2 :: ts2)).data ++ tail))
        (sepStart_cons ' ' (by decide) _)]
      rw [tokenizeAux_space ' ' (by decide) _]
      rw [ih (fun u hu => h u (by simp [hu])) tail htail]
      simp [sexprTokensList]

/-- Every safe tree tokenizes to its token stream. -/
theorem rt_tokens (t : TreeNode) (h : RT t) : TokSpec t := by
  induction h with
  | leaf hok hsafe =>
    rename_i v
    intro cs hcs
    have hne : v.data ≠ [] := hsafe.1.1
    have hw : ∀ c ∈ v.data, isSep c = false := by
      intro c hc
      cases hb : isSep c with
      | false => rfl
      | true => exact absurd hb (hsafe.1.2 c hc)
    have := tokenizeAux_token v.data hne hw cs hcs
    simpa [TreeNode.toSexpr, sexprTokens, mk_data] using this
  | node hmem ih =>
    rename_i cs0
    intro cs hcs
    rw [show TreeNode.toSexpr (.node cs0) = "(" ++ toSexprList cs0 ++ ")" from rfl]
    rw [String.data_append, String.data_append, List.append_assoc, List.append_assoc]
    rw [show (("(" : String)).data ++ ((toSexprList cs0).data ++ ((")" : String).data ++ cs)) =
      '(' :: ((toSexprList cs0).data ++ (')' :: cs)) from rfl]
    rw [tokenizeAux_paren '(' (by decide) _]
    rw [toSexprList_tokens cs0 ih (')' :: cs) (sepStart_cons ')' (by decide) cs)]
    rw [tokenizeAux_paren ')' (by decide) cs]
    show "(" :: (sexprTokensList cs0 ++ (")" :: tokenizeAux cs [])) =
      ("(" :: sexprTokensList cs0 ++ [")"]) ++ tokenizeAux cs []
    simp

/-- Absence of semicolons in one serialized tree. -/
def NoSemiTok (t : TreeNode) : Prop := ∀ c ∈ (TreeNode.toSexpr t).data, c ≠ ';'

/-- Serialized children lists of semicolon-free trees are semicolon-free. -/
theorem toSexprList_noSemi :
    ∀ cs : List TreeNode, (∀ t ∈ cs, NoSemiTok t) →
      ∀ c ∈ (toSexprList cs).data, c ≠ ';' := by
  intro cs
  induction cs with
  | nil => intro _ c hc; simp [toSexprList] at hc
  | cons t ts ih =>
    intro h c hc
    cases ts with
    | nil =>
      exact h t (by simp) c (by simpa [toSexprList] using hc)
    | cons t2 ts2 =>
      rw [show toSexprList (t :: t2 :: ts2) =
        TreeNode.toSexpr t ++ " " ++ toSexprList (t2 :: ts2) from rfl] at hc
      rw [String.data_append, String.data_append] at hc
      rcases List.mem_append.mp hc with hc | hc
      · rcases List.mem_append.mp hc with hc | hc
        · exact h t (by simp) c hc
        · intro e
          subst e
          simp at hc
      · exact ih (fun u hu => h u (by simp [hu])) c hc

/-- Safe trees serialize without semicolons. -/
theorem rt_noSemi (t : TreeNode) (h : RT t) : NoSemiTok t := by
  induction h with
  | leaf hok hsafe =>
    rename_i v
    intro c hc
    exact hsafe.2 c hc
  | node hmem ih =>
    rename_i cs0
    intro c hc
    rw [show TreeNode.toSexpr (.node cs0) = "(" ++ toSexprList cs0 ++ ")" from rfl] at hc
    rw [String.data_append, String.data_append] at hc
    rcases List.mem_append.mp hc with hc | hc
    · rcases List.mem_append.mp hc with hc | hc
      · intro e
        subst e
        simp at hc
      · exact toSexprList_noSemi cs0 ih c hc
    · intro e
      subst e
      simp at hc

/-- Feeding specification: parsing the token stream of one tree pushes
exactly that tree. -/
def FeedSpec (t : TreeNode) : Prop :=
  ∀ rest acc stack,
    parseLoop false (sexprTokens t ++ rest) acc stack =
      parseLoop false rest (t :: acc) stack

/-- Feeding a children list pushes the children, reversed. -/
theorem sexprTokensList_feed :
    ∀ cs : List TreeNode, (∀ t ∈ cs, FeedSpec t) →
      ∀ rest acc stack,
        parseLoop false (sexprTokensList cs ++ rest) acc stack =
          parseLoop false rest (cs.reverse ++ acc) stack := by
  intro cs
  induction cs with
  | nil => intro _ rest acc stack; simp [sexprTokensList]
  | cons t ts ih =>
    intro h rest acc stack
    rw [show sexprTokensList (t :: ts) = sexprTokens t ++ sexprTokensList ts from rfl]
    rw [List.append_assoc]
    rw [h t (by simp) _ acc stack]
    rw [ih (fun u hu => h u (by simp [hu])) rest (t :: acc) stack]
    simp

/-- Every safe tree feeds correctly into the parser loop. -/
theorem rt_feed (t : TreeNode) (h : RT t) : FeedSpec t := by
  induction h with
  | leaf hok hsafe =>
    rename_i v
    intro rest acc stack
    have h1 : ¬v = "(" := by
      intro e
      subst e
      exact absurd (by decide : isSep '(' = true) (hsafe.1.2 '(' (by decide))
    have h2 : ¬v = ")" := by
      intro e
      subst e
      exact absurd (by decide : isSep ')' = true) (hsafe.1.2 ')' (by decide))
    show parseLoop false (v :: rest) acc stack = parseLoop false rest (.leaf v :: acc) stack
    simp only [parseLoop, if_neg h1, if_neg h2]
    rw [mkLeaf_of_leafOk hok]
  | node hmem ih =>
    rename_i cs0
    intro rest acc stack
    rw [show sexprTokens (.node cs0) = "(" :: sexprTokensList cs0 ++ [")"] from rfl]
    simp only [List.cons_append, List.append_assoc, List.nil_append]
    rw [show parseLoop false ("(" :: (sexprTokensList cs0 ++ ")" :: rest)) acc stack =
      parseLoop false (sexprTokensList cs0 ++ ")" :: rest) [] (acc :: stack) from rfl]
    rw [sexprTokensList_feed cs0 ih (")" :: rest) [] (acc :: stack)]
    rw [List.append_nil]
    rw [show parseLoop false (")" :: rest) cs0.reverse (acc :: stack) =
      parseLoop false rest (mkNode false cs0.reverse.reverse :: acc) stack from rfl]
    rw [List.reverse_reverse]
    rfl

/-- C1 (amended): for every constructor-built tree whose leaf values are
tokens containing no parentheses, no whitespace AND no semicolons,
`Parse (ToSexpr t)` returns exactly the one-node forest `[t]`. (A leaf
value containing `;` is a token by the tokenizer yet breaks the round
trip, because `RemoveComments` runs before tokenization — see the
counterexample.) -/
theorem c1_roundtrip (t : TreeNode) (h : RT t) :
    Parse (TreeNode.toSexpr t) false = some [t] := by
  unfold Parse
  have h1 : RemoveComments (TreeNode.toSexpr t) = TreeNode.toSexpr t := by
    unfold RemoveComments removeCommentsList
    rw [removeCommentsAux_id _ (rt_noSemi t h)]
  rw [h1]
  have h2 : tokenize (TreeNode.toSexpr t) = sexprTokens t := by
    unfold tokenize
    have := rt_tokens t h [] trivial
    simpa [tokenizeAux, flushTok] using this
  rw [h2]
  have h3 := rt_feed t h [] [] []
  simp only [List.append_nil] at h3
  rw [h3]
  rfl

/-- C1 counterexample: the leaf `";"` satisfies the claim as stated — its
value is a nonempty token with no parens and no whitespace — yet
`Parse (ToSexpr (leaf ";"))` returns the EMPTY forest, because comment
stripping eats the serialized value. -/
theorem c1_roundtrip_counterexample :
    GoodTok ";" ∧ leafOk ";" ∧
      Parse (TreeNode.toSexpr (.leaf ";")) false = some [] ∧
      some ([] : List TreeNode) ≠ some [TreeNode.leaf ";"] :=
  ⟨by decide, by decide, rfl, by simp⟩

/-- C1 witness: the round trip applied to the tree `(a (b) ())`. -/
theorem c1_roundtrip_witness :
    Parse (TreeNode.toSexpr
        (.node [.leaf "a", .node [.leaf "b"], .node []])) false =
      some [.node [.leaf "a", .node [.leaf "b"], .node []]] := by
  refine c1_roundtrip _ ?_
  refine RT.node ?_
  intro u hu
  simp only [List.mem_cons, List.not_mem_nil, or_false] at hu
  rcases hu with rfl | rfl | rfl
  · exact RT.leaf (by decide) (by decide)
  · refine RT.node ?_
    intro w hw
    simp only [List.mem_cons, List.not_mem_nil, or_false] at hw
    subst hw
    exact RT.leaf (by decide) (by decide)
  · exact RT.node (by intro w hw; simp at hw)

end Sexpr
